import Mathlib

/-!
Shallow embedding of the SVARIV package (src/SVARIV/__init__.py) over ℚ.

Conventions.
* numpy arrays are embedded as total functions `ℕ → ℕ → ℚ` (`Mat`) together
  with explicitly tracked dimensions; every entry formula mirrors the numpy
  expression at the corresponding index, and statements about array contents
  quantify over the in-range indices.
* Floating-point arithmetic is modelled by exact rational arithmetic; the
  float operations with no rational counterpart are passed in as explicit
  function parameters: `rt` models `x ** .5`, `ppf` models `scipy.stats.norm.ppf`
  (an external collaborator of the library), `inv` models `np.linalg.inv` and
  `chol` models `np.linalg.cholesky` (the external linear-algebra provider).
* `np.nan`, `-np.inf`, `np.inf` written into the MSW bound arrays are modelled
  by the dedicated constructors of `MSWBound`.
-/

abbrev Mat : Type := ℕ → ℕ → ℚ

/-- The all-zero matrix (`np.zeros`). -/
def zeroMat : Mat := fun _ _ => 0

/-- `np.eye n` : entry (i, j) of the identity, for indices below `n`. -/
def eye : Mat := fun i j => if i = j then 1 else 0

/-- Matrix product with explicit inner dimension `k`
(`(A @ B)[i, j]` when `A` has `k` columns and `B` has `k` rows). -/
def matMul (A B : Mat) (k : ℕ) : Mat :=
  fun i j => ∑ t ∈ Finset.range k, A i t * B t j

/-- `A.T`. -/
def matTrans (A : Mat) : Mat := fun i j => A j i

/-- `np.linalg.matrix_power A h` for a `k × k` matrix. -/
def matPow (A : Mat) (k : ℕ) : ℕ → Mat
  | 0 => eye
  | h + 1 => matMul A (matPow A k h) k

/-!
## NW_hac_STATA

    Sigma0 = (Vars.T @ Vars) / len(Vars)
    sigma_cov_k = lambda V, k: (V[0:-k].T @ V[0:-k]) / len(V)
    S = Sigma0
    for n in range(lags):
        S += (1 - n / (lags + 1)) * sigma_cov_k(Vars, n) @ sigma_cov_k(Vars, n).T
    return S

`Vars` has `Tr` rows and `d` columns.  Note the numpy slice `V[0:-k]`: for
`k = 0` it is `V[0:0]`, the EMPTY slice (zero rows), while for `k ≥ 1` it is
the first `Tr - k` rows.  `sliceRows` records exactly that row count.
-/

/-- Number of rows of the numpy slice `V[0:-k]` of a `Tr`-row matrix. -/
def sliceRows (Tr k : ℕ) : ℕ :=
  match k with
  | 0 => 0
  | _ => Tr - k

/-- `sigma_cov_k(V, k) = (V[0:-k].T @ V[0:-k]) / len(V)` from `NW_hac_STATA`. -/
def sigma_cov_k (V : Mat) (Tr k : ℕ) : Mat :=
  fun i j => (∑ t ∈ Finset.range (sliceRows Tr k), V t i * V t j) / (Tr : ℚ)

/-- `NW_hac_STATA(Vars, lags)` for a `Tr × d` matrix `Vars`. -/
def NW_hac_STATA (V : Mat) (Tr d lags : ℕ) : Mat :=
  fun i j =>
    (∑ t ∈ Finset.range Tr, V t i * V t j) / (Tr : ℚ) +
      ∑ m ∈ Finset.range lags,
        (1 - (m : ℚ) / ((lags : ℚ) + 1)) *
          ∑ t ∈ Finset.range d, sigma_cov_k V Tr m i t * sigma_cov_k V Tr m j t

/-- Follows the spec's words (§4.2), stated for comparison with the code:
the sample second moment plus, for k = 1..L, the Bartlett-weighted
(`1 - k/(L+1)`) lag-k lagged cross-product `(Σ_t v_t v_{t-k}ᵀ + its
transpose) / T`. -/
def NW_hac_bartlett (V : Mat) (Tr d lags : ℕ) : Mat :=
  fun i j =>
    (∑ t ∈ Finset.range Tr, V t i * V t j) / (Tr : ℚ) +
      ∑ k ∈ Finset.Icc 1 lags,
        (1 - (k : ℚ) / ((lags : ℚ) + 1)) *
          ((∑ t ∈ Finset.range (Tr - k), (V (t + k) i * V t j + V t i * V (t + k) j))
            / (Tr : ℚ))

/-- The constant `2 × 1` matrix of ones, the failing input for the HAC claim. -/
def hacFailV : Mat := fun _ _ => 1

/-!
## MA_representation

    n = len(betas)
    A, C = [betas[:, n * i: n * (i + 1)] for i in range(p)], [np.eye(n)]
    for m in range(1, hori):
        C_m = np.array([a @ c for a, c in zip(A[:m], list(reversed(C)))]).sum(axis=0)
        C.append(C_m)
    return C
-/

/-- Lag block `i` of `betas`: columns `n*i .. n*(i+1)-1`. -/
def lagBlock (betas : Mat) (n i : ℕ) : Mat := fun r c => betas r (n * i + c)

/-- The list `A = [betas[:, n*i:n*(i+1)] for i in range(p)]`. -/
def lagBlocks (betas : Mat) (n p : ℕ) : List Mat :=
  (List.range p).map (lagBlock betas n)

/-- One loop iteration of `MA_representation`: with `C` the list built so far
(of length `m`), this is `np.array([a @ c for a, c in
zip(A[:m], list(reversed(C)))]).sum(axis=0)`.  `zip` truncates to
`min C.length A.length` pairs, and the element paired with `A[m]` is
`reversed(C)[m] = C[C.length - 1 - m]`. -/
def MA_next (A : List Mat) (n : ℕ) (C : List Mat) : Mat :=
  fun i j =>
    ∑ m ∈ Finset.range (min C.length A.length),
      ∑ t ∈ Finset.range n, (A.getD m zeroMat) i t * (C.getD (C.length - 1 - m) zeroMat) t j

/-- The state of `C` after `m` iterations of the `MA_representation` loop. -/
def MA_loop (A : List Mat) (n : ℕ) : ℕ → List Mat
  | 0 => [eye]
  | m + 1 => MA_loop A n m ++ [MA_next A n (MA_loop A n m)]

/-- `MA_representation(betas, p, hori)`; `n = len(betas)` is passed explicitly
(the function-matrix embedding carries no intrinsic shape). -/
def MA_representation (betas : Mat) (n p hori : ℕ) : List Mat :=
  MA_loop (lagBlocks betas n p) n (hori - 1)

theorem MA_loop_length (A : List Mat) (n m : ℕ) : (MA_loop A n m).length = m + 1 := by
  induction m with
  | zero => rfl
  | succ m ih => simp [MA_loop, ih]

theorem MA_loop_getD_stable (A : List Mat) (n : ℕ) (m k : ℕ) (h : k ≤ m) :
    (MA_loop A n (m + 1)).getD k zeroMat = (MA_loop A n m).getD k zeroMat := by
  have hk : k < (MA_loop A n m).length := by
    rw [MA_loop_length]; omega
  simp [MA_loop, List.getD, List.getElem?_append_left hk]

theorem MA_loop_getD_mono (A : List Mat) (n : ℕ) {m m2 k : ℕ} (h : k ≤ m) (h2 : m ≤ m2) :
    (MA_loop A n m2).getD k zeroMat = (MA_loop A n m).getD k zeroMat := by
  induction m2 with
  | zero =>
    have : m = 0 := by omega
    simp [this]
  | succ m2 ih =>
    rcases Nat.lt_or_ge m (m2 + 1) with hlt | hge
    · have hm : m ≤ m2 := by omega
      rw [MA_loop_getD_stable A n m2 k (by omega), ih hm]
    · have : m = m2 + 1 := by omega
      simp [this]

theorem MA_loop_getD_zero (A : List Mat) (n m : ℕ) :
    (MA_loop A n m).getD 0 zeroMat = eye := by
  have h0 : (0 : ℕ) ≤ 0 := le_refl 0
  rw [MA_loop_getD_mono A n h0 (Nat.zero_le m)]
  rfl

theorem MA_loop_getD_succ (A : List Mat) (n : ℕ) {m k : ℕ} (hk : 1 ≤ k) (hkm : k ≤ m) :
    (MA_loop A n m).getD k zeroMat = MA_next A n (MA_loop A n (k - 1)) := by
  rw [MA_loop_getD_mono A n (le_refl k) hkm]
  obtain ⟨k0, rfl⟩ : ∃ k0, k = k0 + 1 := ⟨k - 1, by omega⟩
  have hlen : (MA_loop A n k0).length = k0 + 1 := MA_loop_length A n k0
  simp [MA_loop, List.getD_append_right, hlen]

theorem lagBlocks_getD (betas : Mat) (n p m : ℕ) (hm : m < p) :
    (lagBlocks betas n p).getD m zeroMat = lagBlock betas n m := by
  simp [lagBlocks, List.getD, List.getElem?_map, List.getElem?_range, hm]

theorem lagBlocks_length (betas : Mat) (n p : ℕ) : (lagBlocks betas n p).length = p := by
  simp [lagBlocks]

/-- The entrywise recursion of `MA_representation`:
`C[k] = Σ_{m=1}^{min(k,p)} A[m] · C[k-m]` for `1 ≤ k < hori`
(here `m` runs 0-based over `range (min k p)`). -/
theorem MA_rep_rec (betas : Mat) (n p hori : ℕ) {k : ℕ} (hk1 : 1 ≤ k) (hk2 : k < hori)
    (i j : ℕ) :
    ((MA_representation betas n p hori).getD k zeroMat) i j =
      ∑ m ∈ Finset.range (min k p), ∑ t ∈ Finset.range n,
        betas i (n * m + t) *
          ((MA_representation betas n p hori).getD (k - 1 - m) zeroMat) t j := by
  rw [MA_representation, MA_loop_getD_succ _ n hk1 (by omega)]
  simp only [MA_next, MA_loop_length, lagBlocks_length]
  have hk' : k - 1 + 1 = k := by omega
  rw [hk']
  refine Finset.sum_congr rfl ?_
  intro m hm
  have hmp : m < p := by
    have := Finset.mem_range.mp hm
    omega
  refine Finset.sum_congr rfl ?_
  intro t _
  rw [lagBlocks_getD betas n p m hmp, lagBlock,
    MA_loop_getD_mono (lagBlocks betas n p) n (show k - 1 - m ≤ k - 1 by omega)
      (show k - 1 ≤ hori - 1 by omega)]

/-- For a one-lag VAR (`p = 1`), `C[k] = betas ^ k` entrywise on the
`n × n` index range. -/
theorem MA_rep_pow (betas : Mat) (n hori : ℕ) :
    ∀ k, k < hori → ∀ i j, i < n → j < n →
      ((MA_representation betas n 1 hori).getD k zeroMat) i j = matPow betas n k i j := by
  intro k
  induction k with
  | zero =>
    intro _ i j _ _
    rw [MA_representation, MA_loop_getD_zero]
    rfl
  | succ k ih =>
    intro hk i j hi hj
    rw [MA_rep_rec betas n 1 hori (by omega) hk]
    have hmin : min (k + 1) 1 = 1 := by omega
    rw [hmin, Finset.sum_range_one]
    have hidx : k + 1 - 1 - 0 = k := by omega
    rw [hidx]
    simp only [Nat.mul_zero, Nat.zero_add, matPow, matMul]
    refine Finset.sum_congr rfl ?_
    intro t ht
    rw [ih (by omega) t j (Finset.mem_range.mp ht) hj]

/-- C7: with lag count 0, `NW_hac_STATA` adds no autocorrelation term and
returns exactly the plain sample second moment `VᵀV / T`, entrywise. -/
theorem C7_hac_zero_lags (V : Mat) (Tr d i j : ℕ) :
    NW_hac_STATA V Tr d 0 i j =
      (∑ t ∈ Finset.range Tr, V t i * V t j) / (Tr : ℚ) := by
  simp [NW_hac_STATA]

/-- C2: on the 2 × 1 all-ones matrix with one lag, the code returns the bare
second moment (the loop term is the empty slice `V[0:-0]`, contributing 0),
while the Bartlett formula stated by the spec adds the half-weighted lag-1
cross-product and gives 3/2.  The code therefore does not compute the claimed
Newey-West estimator. -/
theorem C2_hac_bartlett_divergence :
    NW_hac_STATA hacFailV 2 1 1 0 0 = 1 ∧ NW_hac_bartlett hacFailV 2 1 1 0 0 = 3 / 2 := by
  constructor
  · norm_num [NW_hac_STATA, sigma_cov_k, sliceRows, hacFailV, Finset.sum_range_succ]
  · norm_num [NW_hac_bartlett, hacFailV, Finset.sum_range_succ, Finset.Icc_self]

/-- C5: `MA_representation` returns exactly `hori` matrices; `C[0]` is the
identity; `C[k] = Σ_{m=1}^{min(k,p)} A[m] · C[k-m]` entrywise for `1 ≤ k <
hori`; and for a one-lag VAR (`p = 1`) `C[k] = betas ^ k` exactly on the
`n × n` index range. -/
theorem C5_ma_representation (betas : Mat) (n p hori : ℕ) (hh : 1 ≤ hori) (hp : 1 ≤ p) :
    (MA_representation betas n p hori).length = hori ∧
    (MA_representation betas n p hori).getD 0 zeroMat = eye ∧
    (∀ k, 1 ≤ k → k < hori → ∀ i j,
      ((MA_representation betas n p hori).getD k zeroMat) i j =
        ∑ m ∈ Finset.range (min k p), ∑ t ∈ Finset.range n,
          betas i (n * m + t) *
            ((MA_representation betas n p hori).getD (k - 1 - m) zeroMat) t j) ∧
    (p = 1 → ∀ k, k < hori → ∀ i j, i < n → j < n →
      ((MA_representation betas n p hori).getD k zeroMat) i j = matPow betas n k i j) := by
  refine ⟨?_, ?_, ?_, ?_⟩
  · rw [MA_representation, MA_loop_length]; omega
  · rw [MA_representation, MA_loop_getD_zero]
  · intro k hk1 hk2 i j
    exact MA_rep_rec betas n p hori hk1 hk2 i j
  · rintro rfl
    exact MA_rep_pow betas n hori

/-- The concrete one-lag coefficient matrix `[[1/2]]` used as the C5 witness
input. -/
def c5Betas : Mat := fun _ _ => 1 / 2

/-- C5 witness: the hypotheses hold and the theorem applies at the concrete
input `betas = [[1/2]]`, `n = 1`, `p = 1`, `hori = 2`. -/
theorem C5_ma_representation_witness :
    ((1 : ℕ) ≤ 2 ∧ (1 : ℕ) ≤ 1) ∧
    ((MA_representation c5Betas 1 1 2).length = 2 ∧
    (MA_representation c5Betas 1 1 2).getD 0 zeroMat = eye ∧
    (∀ k, 1 ≤ k → k < 2 → ∀ i j,
      ((MA_representation c5Betas 1 1 2).getD k zeroMat) i j =
        ∑ m ∈ Finset.range (min k 1), ∑ t ∈ Finset.range 1,
          c5Betas i (1 * m + t) *
            ((MA_representation c5Betas 1 1 2).getD (k - 1 - m) zeroMat) t j) ∧
    ((1 : ℕ) = 1 → ∀ k, k < 2 → ∀ i j, i < 1 → j < 1 →
      ((MA_representation c5Betas 1 1 2).getD k zeroMat) i j = matPow c5Betas 1 k i j)) :=
  ⟨⟨by decide, by decide⟩, C5_ma_representation c5Betas 1 1 2 (by decide) (by decide)⟩

/-!
## Gmatrices

    n = len(betas)
    C = MA_representation(betas, p, hori)[1:]
    C_aux = ([np.eye(n)] + C[:hori])[:hori-1]
    J = np.concatenate([np.eye(n), np.zeros((n, (p - 1) * n))], axis=1)
    Alut = np.concatenate([betas, np.zeros((len(betas.T) - len(betas), len(betas.T)))], axis=0)
    Alut[len(betas):, :len(Alut.T) - len(betas)] = np.eye(len(Alut[len(betas):, :]))
    AJ = [np.linalg.matrix_power(Alut, h) @ J.T for h in range(hori - 1)]
    AJp = np.concatenate(AJ, axis=1).T
    AJaux: Z_i places kron(AJp[:n*(hori-i), :], C_aux[i]) with an i*n^2 row offset
    G0 = sum(AJaux).T.reshape(p*n**2, n**2, hori-1, order='F')
    Gaux = np.moveaxis(G0, [0, 1, 2], [1, 0, 2])
    G = zeros one horizon longer; G[:, :, i] = Gaux[:, :, i-1] for i ≥ 1
    Gcum = np.cumsum(G, 2)
-/

/-- A 3-axis numpy array: the three dimensions plus the entry function. -/
structure Arr3 where
  d1 : ℕ
  d2 : ℕ
  d3 : ℕ
  val : ℕ → ℕ → ℕ → ℚ

/-- The dictionary `{'G': ..., 'Gcum': ...}` returned by `Gmatrices`. -/
structure GmatResult where
  G : Arr3
  Gcum : Arr3

/-- `C = MA_representation(betas, p, hori)[1:]` inside `Gmatrices`. -/
def Gm_C (betas : Mat) (n p hori : ℕ) : List Mat :=
  (MA_representation betas n p hori).drop 1

/-- `C_aux = ([np.eye(n)] + C[:hori])[:hori-1]`. -/
def Gm_Caux (betas : Mat) (n p hori : ℕ) : List Mat :=
  (eye :: (Gm_C betas n p hori).take hori).take (hori - 1)

/-- `J = [I_n | 0_{n×(p-1)n}]` (an `n × pn` matrix). -/
def Gm_J (n : ℕ) : Mat := fun i j => if i = j ∧ j < n then 1 else 0

/-- The companion matrix `Alut` (`pn × pn`): top `n` rows are `betas`, below
them the sub-diagonal identity placed at `Alut[n:, :pn-n]`. -/
def Gm_Alut (betas : Mat) (n : ℕ) : Mat :=
  fun i j => if i < n then betas i j else if j + n = i then 1 else 0

/-- `AJ[h] = np.linalg.matrix_power(Alut, h) @ J.T` (a `pn × n` matrix). -/
def Gm_AJ (betas : Mat) (n p h : ℕ) : Mat :=
  matMul (matPow (Gm_Alut betas n) (p * n) h) (matTrans (Gm_J n)) (p * n)

/-- `AJp = np.concatenate(AJ, axis=1).T` (an `n(hori-1) × pn` matrix): row `r`
belongs to the block of `AJ[r / n]`. -/
def Gm_AJp (betas : Mat) (n p : ℕ) : Mat :=
  fun r c => Gm_AJ betas n p (r / n) c (r % n)

/-- `l = np.kron(AJp[:n*(hori-i), :], C_aux[i])` (the row slice only restricts
which rows exist; the entry formula is the Kronecker product's). -/
def Gm_l (betas : Mat) (n p hori i : ℕ) : Mat :=
  fun r c =>
    Gm_AJp betas n p (r / n) (c / n) *
      ((Gm_Caux betas n p hori).getD i zeroMat) (r % n) (c % n)

/-- The `i`-th member of `AJaux`: `Z` is zero above row `i*n²` and carries
`l[:len(Z) - n²*i, :]` from that row on. -/
def Gm_Z (betas : Mat) (n p hori i : ℕ) : Mat :=
  fun r c => if r < i * n ^ 2 then 0 else Gm_l betas n p hori i (r - i * n ^ 2) c

/-- `np.array(AJaux).sum(axis=0)` (an `n²(hori-1) × pn²` matrix). -/
def Gm_M (betas : Mat) (n p hori : ℕ) : Mat :=
  fun r c => ∑ i ∈ Finset.range (hori - 1), Gm_Z betas n p hori i r c

/-- `Gmatrices(betas, p, hori)` with `n = len(betas)` passed explicitly.
`G0` is the Fortran-order reshape of the transposed sum, `Gaux` swaps its
first two axes (`np.moveaxis`), `G` shifts the horizon axis by one (so that
`G[:, :, 0]` is the zero matrix), and `Gcum` is `np.cumsum(G, 2)`. -/
def Gmatrices (betas : Mat) (n p hori : ℕ) : GmatResult :=
  let G0 : Arr3 :=
    ⟨p * n ^ 2, n ^ 2, hori - 1, fun a b k => Gm_M betas n p hori (b + n ^ 2 * k) a⟩
  let Gaux : Arr3 := ⟨G0.d2, G0.d1, G0.d3, fun a b k => G0.val b a k⟩
  let G : Arr3 :=
    ⟨Gaux.d1, Gaux.d2, Gaux.d3 + 1, fun a b t => if t = 0 then 0 else Gaux.val a b (t - 1)⟩
  let Gcum : Arr3 :=
    ⟨G.d1, G.d2, G.d3, fun a b t => ∑ s ∈ Finset.range (t + 1), G.val a b s⟩
  ⟨G, Gcum⟩

/-- The concrete `1 × 2` coefficient matrix `[[1/2, 3/10]]` (one variable,
two lags) used against claim C4. -/
def c4Betas : Mat := fun _ j => if j = 0 then 1 / 2 else if j = 1 then 3 / 10 else 0

/-- C4 counterexample: for `n = 1`, `p = 2`, `hori = 2` the first axis of the
returned `G` has length `n² = 1`, not `n·p·n = 2` as the claim states (the
first two axes are swapped by `np.moveaxis` before `G` is assembled). -/
theorem C4_gmatrices_cex : (Gmatrices c4Betas 1 2 2).G.d1 ≠ 1 * 2 * 1 := by
  decide

/-- C4 amended: `G` and `Gcum` are sized `n² × (n·p·n) × hori` (the first two
axes are transposed relative to the claim); the horizon-0 slice of `G` is the
zero matrix; and `Gcum` is the running cumulative sum of `G` along the
horizon axis. -/
theorem C4_gmatrices_amended (betas : Mat) (n p hori : ℕ) (hh : 1 ≤ hori) :
    ((Gmatrices betas n p hori).G.d1 = n ^ 2 ∧
      (Gmatrices betas n p hori).G.d2 = p * n ^ 2 ∧
      (Gmatrices betas n p hori).G.d3 = hori) ∧
    ((Gmatrices betas n p hori).Gcum.d1 = n ^ 2 ∧
      (Gmatrices betas n p hori).Gcum.d2 = p * n ^ 2 ∧
      (Gmatrices betas n p hori).Gcum.d3 = hori) ∧
    (∀ a b, (Gmatrices betas n p hori).G.val a b 0 = 0) ∧
    (∀ a b t, (Gmatrices betas n p hori).Gcum.val a b t =
      ∑ s ∈ Finset.range (t + 1), (Gmatrices betas n p hori).G.val a b s) := by
  refine ⟨⟨rfl, rfl, ?_⟩, ⟨rfl, rfl, ?_⟩, fun a b => rfl, fun a b t => rfl⟩
  · show hori - 1 + 1 = hori
    omega
  · show hori - 1 + 1 = hori
    omega

/-- C4 amended witness: the horizon hypothesis holds and the amended theorem
applies at the concrete input `betas = [[1/2, 3/10]]`, `n = 1`, `p = 2`,
`hori = 2`. -/
theorem C4_gmatrices_witness :
    (1 : ℕ) ≤ 2 ∧
    (((Gmatrices c4Betas 1 2 2).G.d1 = 1 ^ 2 ∧
      (Gmatrices c4Betas 1 2 2).G.d2 = 2 * 1 ^ 2 ∧
      (Gmatrices c4Betas 1 2 2).G.d3 = 2) ∧
    ((Gmatrices c4Betas 1 2 2).Gcum.d1 = 1 ^ 2 ∧
      (Gmatrices c4Betas 1 2 2).Gcum.d2 = 2 * 1 ^ 2 ∧
      (Gmatrices c4Betas 1 2 2).Gcum.d3 = 2) ∧
    (∀ a b, (Gmatrices c4Betas 1 2 2).G.val a b 0 = 0) ∧
    (∀ a b t, (Gmatrices c4Betas 1 2 2).Gcum.val a b t =
      ∑ s ∈ Finset.range (t + 1), (Gmatrices c4Betas 1 2 2).G.val a b s)) :=
  ⟨by decide, C4_gmatrices_amended c4Betas 1 2 2 (by decide)⟩

/-!
## irf_lineal_cholesky / irf_gamma

    use_chol = True if S.shape[1] >= 2 else False
    irf_0 = list(np.linalg.cholesky(S)[:, 0]) if use_chol == True else list(S)
    if normalize:
        irf_0 = koef * (np.array(irf_0) / (np.array(irf_0)[0]))
    irf[0, :] = list(irf_0)
    for t in range(1, periods):
        irf[t, :] = sum over the most recent min(t, Lags) rows, in reverse
                    order, of betas_lags[m] @ irf[t-1-m]
    if cumulative: irf = irf.cumsum(axis=0)

`np.linalg.cholesky` is the external linear-algebra provider, passed in as
the function parameter `chol`.
-/

/-- The raw shock vector of `irf_lineal_cholesky`: column 0 of `cholesky(S)`
when `S` has at least two columns, else `S` itself read as a vector. -/
def irf_shock (S : Mat) (Scols : ℕ) (chol : Mat → Mat) : ℕ → ℚ :=
  fun i => if 2 ≤ Scols then chol S i 0 else S i 0

/-- Row 0 of the IRF array: the shock vector, rescaled to `koef` at its first
entry when `normalize` is set. -/
def irf_row0 (S : Mat) (Scols : ℕ) (chol : Mat → Mat) (normalize : Bool) (koef : ℚ) :
    ℕ → ℚ :=
  fun i =>
    if normalize then koef * (irf_shock S Scols chol i / irf_shock S Scols chol 0)
    else irf_shock S Scols chol i

/-- Row `t` of the (non-cumulated) IRF array: row 0 is `row0`; row `t ≥ 1` is
`Σ_{m=0}^{min(t,Lags)-1} betas_lags[m] @ irf[t-1-m]`. -/
def irf_row (betas : Mat) (n Lags : ℕ) (row0 : ℕ → ℚ) : ℕ → ℕ → ℚ
  | 0 => row0
  | t + 1 => fun j =>
      ∑ m ∈ Finset.range (min (t + 1) Lags),
        ∑ c ∈ Finset.range n, lagBlock betas n m j c * irf_row betas n Lags row0 (t - m) c
  termination_by t => t
  decreasing_by omega

/-- `irf_lineal_cholesky(betas, S, periods, normalize, cumulative, koef)`:
entry `(t, j)` of the returned array.  `n = betas.shape[0]`,
`Lags = betas.shape[1] / betas.shape[0]` and `Scols = S.shape[1]` are passed
explicitly; `periods` only fixes the allocated number of rows. -/
def irf_lineal_cholesky (betas S : Mat) (n Lags Scols periods : ℕ)
    (normalize cumulative : Bool) (koef : ℚ) (chol : Mat → Mat) : ℕ → ℕ → ℚ :=
  fun t j =>
    if cumulative then
      ∑ s ∈ Finset.range (t + 1), irf_row betas n Lags (irf_row0 S Scols chol normalize koef) s j
    else irf_row betas n Lags (irf_row0 S Scols chol normalize koef) t j

/-- `irf_gamma(betas, Gamma_hat, periods, koef, wrt)`: entry `i` of the
horizon-`h` response `MA_representation(betas, Lags, periods)[h] @ Gamma_hat
/ Gamma_hat[wrt] * koef`. -/
def irf_gamma (betas Gamma_hat : Mat) (n Lags periods : ℕ) (koef : ℚ) (wrt : ℕ) :
    ℕ → ℕ → ℚ :=
  fun h i =>
    (∑ t ∈ Finset.range n,
        ((MA_representation betas n Lags periods).getD h zeroMat) i t * Gamma_hat t 0) /
      Gamma_hat wrt 0 * koef

/-- C8: with `normalize = true` and a nonzero first shock entry, the first
entry of row 0 of `irf_lineal_cholesky` equals `koef` for every input and
either value of `cumulative`; and for every `Gamma_hat` whose normalization
entry is nonzero, the `wrt` entry of `irf_gamma`'s horizon-0 response equals
`koef`. -/
theorem C8_horizon_zero_shock (betas S Gamma_hat : Mat) (n Lags Scols periods : ℕ)
    (cumulative : Bool) (koef : ℚ) (chol : Mat → Mat) (wrt : ℕ)
    (hS : 2 ≤ Scols) (hchol : chol S 0 0 ≠ 0) (hwrt : wrt < n)
    (hGam : Gamma_hat wrt 0 ≠ 0) :
    irf_lineal_cholesky betas S n Lags Scols periods true cumulative koef chol 0 0 = koef ∧
    irf_gamma betas Gamma_hat n Lags periods koef wrt 0 wrt = koef := by
  constructor
  · have hrow0 : irf_row0 S Scols chol true koef 0 = koef := by
      have hsh : irf_shock S Scols chol 0 = chol S 0 0 := by
        simp [irf_shock, hS]
      simp [irf_row0, hsh, div_self hchol]
    rcases cumulative with _ | _
    · simpa [irf_lineal_cholesky, irf_row] using hrow0
    · simpa [irf_lineal_cholesky, irf_row] using hrow0
  · have h0 : (MA_representation betas n Lags periods).getD 0 zeroMat = eye := by
      rw [MA_representation, MA_loop_getD_zero]
    rw [irf_gamma, h0]
    have hsum : (∑ t ∈ Finset.range n, eye wrt t * Gamma_hat t 0) = Gamma_hat wrt 0 := by
      rw [Finset.sum_eq_single wrt]
      · simp [eye]
      · intro b _ hb
        simp [eye, Ne.symm hb]
      · intro hw
        exact absurd (Finset.mem_range.mpr hwrt) hw
    rw [hsum, div_self hGam, one_mul]

/-- The all-ones matrix used as concrete witness input. -/
def oneMat : Mat := fun _ _ => 1

/-- C8 witness: the hypotheses hold and the theorem applies with
`betas = S = Gamma_hat = oneMat`, `n = Lags = 1`, `Scols = 2`,
`chol = fun M => M`, `koef = 1/10`, `wrt = 0`. -/
theorem C8_horizon_zero_shock_witness :
    ((2 : ℕ) ≤ 2 ∧ (fun (M : Mat) => M) oneMat 0 0 ≠ 0 ∧ (0 : ℕ) < 1 ∧
      oneMat 0 0 ≠ (0 : ℚ)) ∧
    (irf_lineal_cholesky oneMat oneMat 1 1 2 5 true true (1 / 10) (fun M => M) 0 0 = 1 / 10 ∧
      irf_gamma oneMat oneMat 1 1 5 (1 / 10) 0 0 0 = 1 / 10) :=
  ⟨⟨by decide, by decide, by decide, by decide⟩,
    C8_horizon_zero_shock oneMat oneMat oneMat 1 1 2 5 true (1 / 10) (fun M => M) 0
      (by decide) (by decide) (by decide) (by decide)⟩

/-!
## get_gamma_wald

    Gamma_hat = ((Z.T @ eta) / len(eta)).T
    matagg = np.concatenate((X, eta, Z), axis=1).T
    val[i] = eta[i]ᵀ @ matagg[:, i]ᵀ ; demean across i; reshape each slice
    column-major into a row and stack into AuxHAC2 (T × n·(Xcols+n+1))
    AuxHAC3 = NW_hac_STATA(AuxHAC2, 0)
    V = selector stacking np.kron(I[i, :], I[i:, :]) for i = 0..n-1
    Shat = block map assembled from A = kron([0|I]Q1⁻¹, I), V,
           B = -kron(Q2 Q1⁻¹, I), C = I (later blocks overwrite earlier ones)
    WHataux = Shat @ AuxHAC3 @ Shat.T
    L = len(Q1) * len(C); WHat = the four extracted blocks of WHataux
    wald = T * Gamma_hat[nvar-1, 0]² / WHat[-n + nvar - 1, -n + nvar - 1]

The matrix products only conform for a single instrument column, so the
embedding fixes `Z` to be `T × 1`.  `np.linalg.inv` is the abstract `inv`
parameter. -/

/-- `Gamma_hat = ((Z.T @ eta) / len(eta)).T`. -/
def ggw_Gamma_hat (Z eta : Mat) (T : ℕ) : Mat :=
  fun i j => (∑ t ∈ Finset.range T, Z t j * eta t i) / (T : ℚ)

/-- `matagg = np.concatenate((X, eta, Z), axis=1).T`, a `(Xcols+n+1) × T`
matrix. -/
def ggw_matagg (X Z eta : Mat) (Xcols n : ℕ) : Mat :=
  fun r c =>
    if r < Xcols then X c r
    else if r < Xcols + n then eta c (r - Xcols)
    else Z c (r - Xcols - n)

/-- `val.mean(axis=0)`: the mean over t of `eta[t]ᵀ @ matagg[:, t]ᵀ`. -/
def ggw_val_mean (X Z eta : Mat) (T Xcols n : ℕ) : Mat :=
  fun a b => (∑ t ∈ Finset.range T, eta t a * ggw_matagg X Z eta Xcols n b t) / (T : ℚ)

/-- `AuxHAC2`: row `t` is the column-major (order='F') flattening of the
demeaned moment matrix `val[t] - val.mean(axis=0)`; flat index `c` addresses
entry `(c % n, c / n)`. -/
def ggw_AuxHAC2 (X Z eta : Mat) (T Xcols n : ℕ) : Mat :=
  fun t c =>
    eta t (c % n) * ggw_matagg X Z eta Xcols n (c / n) t -
      ggw_val_mean X Z eta T Xcols n (c % n) (c / n)

/-- `AuxHAC3 = NW_hac_STATA(AuxHAC2, 0)`. -/
def ggw_AuxHAC3 (X Z eta : Mat) (T Xcols n : ℕ) : Mat :=
  NW_hac_STATA (ggw_AuxHAC2 X Z eta T Xcols n) T (n * (Xcols + n + 1)) 0

/-- Row dispatch for the stacked selector `V`: block `i` contributes the
`n - i` rows of `np.kron(I[i, :], I[i:, :])`; row `r` of block `i` has a 1
exactly at flat column `c` with `c / n = i` and `c % n = i + r`.  The fuel
argument bounds the recursion by `n` blocks. -/
def VselGo (n : ℕ) : ℕ → ℕ → ℕ → ℕ → ℚ
  | 0, _, _, _ => 0
  | fuel + 1, i, r, c =>
      if r < n - i then (if c / n = i ∧ c % n = i + r then 1 else 0)
      else VselGo n fuel (i + 1) (r - (n - i)) c

/-- The selector matrix `V` (`n(n+1)/2 × n²`). -/
def Vsel (n : ℕ) : Mat := fun r c => VselGo n n 0 r c

/-- `Q1 = X.T @ X / len(X)`. -/
def ggw_Q1 (X : Mat) (T : ℕ) : Mat :=
  fun i j => (∑ t ∈ Finset.range T, X t i * X t j) / (T : ℚ)

/-- `Q2 = Z.T @ X / len(X)`. -/
def ggw_Q2 (X Z : Mat) (T : ℕ) : Mat :=
  fun i j => (∑ t ∈ Finset.range T, Z t i * X t j) / (T : ℚ)

/-- `[np.zeros((n*p, m)), np.eye(n*p)] @ inv(Q1)` with `m = Xcols - n*p`. -/
def ggw_SelInv (X : Mat) (T Xcols n p : ℕ) (inv : Mat → Mat) : Mat :=
  matMul (fun i j => if j = i + (Xcols - n * p) then 1 else 0) (inv (ggw_Q1 X T)) Xcols

/-- `A = np.kron([0|I] @ inv(Q1), np.eye(n))` (`n·p·n × n·Xcols`). -/
def ggw_blockA (X : Mat) (T Xcols n p : ℕ) (inv : Mat → Mat) : Mat :=
  fun r c =>
    ggw_SelInv X T Xcols n p inv (r / n) (c / n) * (if r % n = c % n then 1 else 0)

/-- `B = -np.kron(Q2 @ inv(Q1), np.eye(n))` (`n × n·Xcols` for one
instrument). -/
def ggw_blockB (X Z : Mat) (T Xcols n : ℕ) (inv : Mat → Mat) : Mat :=
  fun r c =>
    -(matMul (ggw_Q2 X Z T) (inv (ggw_Q1 X T)) Xcols (r / n) (c / n)) *
      (if r % n = c % n then 1 else 0)

/-- The number of rows of `Shat`: `len(Q1)·n + len(V)`. -/
def ggw_Rs (Xcols n : ℕ) : ℕ := Xcols * n + n * (n + 1) / 2

/-- The number of columns of `Shat`: `len(Q1)·n + n² + n`. -/
def ggw_SC (Xcols n : ℕ) : ℕ := Xcols * n + n ^ 2 + n

/-- The assembled `Shat`.  `B` and the identity `C` are assigned after `A`
and `V`, so their regions take precedence where regions overlap. -/
def ggw_Shat (X Z eta : Mat) (T Xcols n p : ℕ) (inv : Mat → Mat) : Mat :=
  fun r c =>
    if ggw_Rs Xcols n - n ≤ r ∧ r < ggw_Rs Xcols n ∧ c < Xcols * n then
      ggw_blockB X Z T Xcols n inv (r - (ggw_Rs Xcols n - n)) c
    else if ggw_Rs Xcols n - n ≤ r ∧ r < ggw_Rs Xcols n ∧ Xcols * n + n ^ 2 ≤ c ∧
        c < ggw_SC Xcols n then
      (if r - (ggw_Rs Xcols n - n) = c - (Xcols * n + n ^ 2) then 1 else 0)
    else if r < n * p * n ∧ c < Xcols * n then ggw_blockA X T Xcols n p inv r c
    else if n * p * n ≤ r ∧ r < n * p * n + n * (n + 1) / 2 ∧ Xcols * n ≤ c ∧
        c < Xcols * n + n ^ 2 then
      Vsel n (r - n * p * n) (c - Xcols * n)
    else 0

/-- `WHataux = Shat @ AuxHAC3 @ Shat.T`. -/
def ggw_WHataux (X Z eta : Mat) (T Xcols n p : ℕ) (inv : Mat → Mat) : Mat :=
  fun i j =>
    ∑ t ∈ Finset.range (ggw_SC Xcols n), ∑ s ∈ Finset.range (ggw_SC Xcols n),
      ggw_Shat X Z eta T Xcols n p inv i t * ggw_AuxHAC3 X Z eta T Xcols n t s *
        ggw_Shat X Z eta T Xcols n p inv j s

/-- `L = len(Q1) * len(C)`: the allocated size of `WHat` (`len(C) = n` for a
single instrument). -/
def ggw_L (Xcols n : ℕ) : ℕ := Xcols * n

/-- The final `WHat`: top-left, bottom-right and bottom-left blocks are copied
from `WHataux`, and the top-right block is the transpose of the bottom-left
one. -/
def ggw_WHat (X Z eta : Mat) (T Xcols n p : ℕ) (inv : Mat → Mat) : Mat :=
  fun i j =>
    if i < ggw_L Xcols n - n ∧ j < ggw_L Xcols n - n then
      ggw_WHataux X Z eta T Xcols n p inv i j
    else if ggw_L Xcols n - n ≤ i ∧ ggw_L Xcols n - n ≤ j then
      ggw_WHataux X Z eta T Xcols n p inv
        (ggw_Rs Xcols n - n + (i - (ggw_L Xcols n - n)))
        (ggw_Rs Xcols n - n + (j - (ggw_L Xcols n - n)))
    else if ggw_L Xcols n - n ≤ i ∧ j < ggw_L Xcols n - n then
      ggw_WHataux X Z eta T Xcols n p inv (ggw_Rs Xcols n - n + (i - (ggw_L Xcols n - n))) j
    else
      ggw_WHataux X Z eta T Xcols n p inv (ggw_Rs Xcols n - n + (j - (ggw_L Xcols n - n))) i

/-- The triple `(WHat, wald, Gamma_hat)` returned by `get_gamma_wald`,
together with the allocated size of `WHat`. -/
structure GGWResult where
  WHat : Mat
  dim : ℕ
  wald : ℚ
  Gamma_hat : Mat

/-- `get_gamma_wald(X, Z, eta, p, n, nvar)` for a single instrument column;
`T = len(eta)` and `Xcols = X.shape[1]` are passed explicitly. -/
def get_gamma_wald (X Z eta : Mat) (T Xcols n p nvar : ℕ) (inv : Mat → Mat) : GGWResult :=
  ⟨ggw_WHat X Z eta T Xcols n p inv,
    ggw_L Xcols n,
    (T : ℚ) * (ggw_Gamma_hat Z eta T (nvar - 1) 0) ^ 2 /
      ggw_WHat X Z eta T Xcols n p inv (ggw_L Xcols n - n + nvar - 1)
        (ggw_L Xcols n - n + nvar - 1),
    ggw_Gamma_hat Z eta T⟩

theorem ggw_AuxHAC3_symm (X Z eta : Mat) (T Xcols n : ℕ) (a b : ℕ) :
    ggw_AuxHAC3 X Z eta T Xcols n a b = ggw_AuxHAC3 X Z eta T Xcols n b a := by
  unfold ggw_AuxHAC3 NW_hac_STATA
  simp only [Finset.range_zero, Finset.sum_empty, add_zero]
  congr 1
  exact Finset.sum_congr rfl fun t _ => mul_comm _ _

theorem ggw_WHataux_symm (X Z eta : Mat) (T Xcols n p : ℕ) (inv : Mat → Mat) (i j : ℕ) :
    ggw_WHataux X Z eta T Xcols n p inv i j = ggw_WHataux X Z eta T Xcols n p inv j i := by
  unfold ggw_WHataux
  rw [Finset.sum_comm]
  refine Finset.sum_congr rfl fun s _ => Finset.sum_congr rfl fun t _ => ?_
  rw [ggw_AuxHAC3_symm X Z eta T Xcols n t s]
  ring

/-- C3 counterexample: at the concrete single-instrument input
`X = Z = eta = oneMat` (read as `2 × 1` matrices), `n = p = nvar = 1`,
`Xcols = 1`, the allocated size of `WHat` is `n·Xcols = 1`, so `WHat` cannot
be partitioned into a VAR-coefficient block of size `n·Xcols = 1` plus a
Gamma block of size `n = 1` (that would need size 2): the claimed `W1` block
size is off by `n`. -/
theorem C3_whatmatrix_cex :
    (get_gamma_wald oneMat oneMat oneMat 2 1 1 1 1 (fun M => M)).dim ≠ 1 * 1 + 1 := by
  decide

/-- C3 amended: `WHat` is square of allocated size `n·(columns of X)` (for
the single instrument column the code's products require) and symmetric at
every pair of indices; in the partition `[[W1, W12], [W12ᵀ, W2]]` the Gamma
block `W2` has size `n` and the VAR-coefficient block `W1` therefore has
size `n·(columns of X) - n`, not `n·(columns of X)`. -/
theorem C3_whatmatrix_amended (X Z eta : Mat) (T Xcols n p nvar : ℕ) (inv : Mat → Mat) :
    (get_gamma_wald X Z eta T Xcols n p nvar inv).dim = Xcols * n ∧
    (∀ i j, (get_gamma_wald X Z eta T Xcols n p nvar inv).WHat i j =
      (get_gamma_wald X Z eta T Xcols n p nvar inv).WHat j i) := by
  refine ⟨rfl, fun i j => ?_⟩
  show ggw_WHat X Z eta T Xcols n p inv i j = ggw_WHat X Z eta T Xcols n p inv j i
  unfold ggw_WHat
  by_cases hi : i < ggw_L Xcols n - n <;> by_cases hj : j < ggw_L Xcols n - n
  · simp only [hi, hj, and_self, if_true]
    exact ggw_WHataux_symm X Z eta T Xcols n p inv i j
  · simp only [if_neg (by omega : ¬(i < ggw_L Xcols n - n ∧ j < ggw_L Xcols n - n)),
      if_neg (by omega : ¬(ggw_L Xcols n - n ≤ i ∧ ggw_L Xcols n - n ≤ j)),
      if_neg (by omega : ¬(ggw_L Xcols n - n ≤ i ∧ j < ggw_L Xcols n - n)),
      if_neg (by omega : ¬(j < ggw_L Xcols n - n ∧ i < ggw_L Xcols n - n)),
      if_neg (by omega : ¬(ggw_L Xcols n - n ≤ j ∧ ggw_L Xcols n - n ≤ i)),
      if_pos (by omega : ggw_L Xcols n - n ≤ j ∧ i < ggw_L Xcols n - n)]
  · simp only [if_neg (by omega : ¬(i < ggw_L Xcols n - n ∧ j < ggw_L Xcols n - n)),
      if_neg (by omega : ¬(ggw_L Xcols n - n ≤ i ∧ ggw_L Xcols n - n ≤ j)),
      if_pos (by omega : ggw_L Xcols n - n ≤ i ∧ j < ggw_L Xcols n - n),
      if_neg (by omega : ¬(j < ggw_L Xcols n - n ∧ i < ggw_L Xcols n - n)),
      if_neg (by omega : ¬(ggw_L Xcols n - n ≤ j ∧ ggw_L Xcols n - n ≤ i)),
      if_neg (by omega : ¬(ggw_L Xcols n - n ≤ j ∧ i < ggw_L Xcols n - n))]
  · have hi2 : ggw_L Xcols n - n ≤ i := by omega
    have hj2 : ggw_L Xcols n - n ≤ j := by omega
    simp only [if_neg (by omega : ¬(i < ggw_L Xcols n - n ∧ j < ggw_L Xcols n - n)),
      if_pos (by omega : ggw_L Xcols n - n ≤ i ∧ ggw_L Xcols n - n ≤ j),
      if_neg (by omega : ¬(j < ggw_L Xcols n - n ∧ i < ggw_L Xcols n - n)),
      if_pos (by omega : ggw_L Xcols n - n ≤ j ∧ ggw_L Xcols n - n ≤ i)]
    exact ggw_WHataux_symm X Z eta T Xcols n p inv _ _

/-!
## CI_dmethod

Per (variable j, horizon ih) cell the code computes the quadratic
coefficients `ahat`, `bhat`, `chat`, the discriminant `Deltahat`, then
branches:

    if   ahat > 0 and Deltahat > 0: case 1, bounds (-b ∓ √Δ) / 2a
    elif ahat < 0 and Deltahat > 0: case 2, the two roots swapped
    elif ahat > 0 and Deltahat < 0: case 3, bounds NaN
    else:                           case 4, bounds -inf / +inf

and finally overwrites both bounds of cell `(nvar-1, 0)` with `scale`.
`norm.ppf` is the abstract `ppf` parameter and the float `** .5` is the
abstract `rt` parameter.
-/

/-- A float value stored in the MSW bound arrays: NaN, `-np.inf`, `np.inf`
or a finite value. -/
inductive MSWBound
  | nan
  | neginf
  | posinf
  | fin (x : ℚ)
deriving DecidableEq

/-- The inputs of `CI_dmethod` (and of `CI_dmethod_standard`, which has the
same signature).  `L` is the allocated size of `WHat`, `n = len(Gamma_hat)`;
`ppf` models `scipy.stats.norm.ppf` and `rt` models the float `** .5`. -/
structure CIDInput where
  Gamma : Mat
  WHat : Mat
  L : ℕ
  G : Arr3
  T : ℕ
  C : List Mat
  hori : ℕ
  n : ℕ
  confidence : ℚ
  ppf : ℚ → ℚ
  scale : ℚ
  nvar : ℕ
  rt : ℚ → ℚ

/-- `critval = norm.ppf(1-(1-confidence)/2)**2`. -/
def CI_critval (inp : CIDInput) : ℚ := inp.ppf (1 - (1 - inp.confidence) / 2) ^ 2

/-- `W1 = WHat[:-n, :-n]`. -/
def CI_W1 (inp : CIDInput) : Mat := fun a b => inp.WHat a b

/-- `W2 = WHat[-n:, -n:]`. -/
def CI_W2 (inp : CIDInput) : Mat :=
  fun a b => inp.WHat (inp.L - inp.n + a) (inp.L - inp.n + b)

/-- `W12 = WHat[W1.shape[0]:, :W1.shape[0]].T`. -/
def CI_W12 (inp : CIDInput) : Mat := fun a b => inp.WHat (inp.L - inp.n + b) a

/-- `C[ih]`. -/
def CI_Cmat (inp : CIDInput) (ih : ℕ) : Mat := inp.C.getD ih zeroMat

/-- `e[:,j].T @ C[ih] @ Gamma_hat`. -/
def CI_eCG (inp : CIDInput) (j ih : ℕ) : ℚ :=
  ∑ t ∈ Finset.range inp.n, CI_Cmat inp ih j t * inp.Gamma t 0

/-- Entry `c` of the row `np.kron(Gamma_hat.T, e[:,j].T)` (length `n²`). -/
def CI_kron (inp : CIDInput) (j c : ℕ) : ℚ :=
  inp.Gamma (c / inp.n) 0 * (if c % inp.n = j then 1 else 0)

/-- Entry `b` of `np.kron(Gamma_hat.T, e[:,j].T) @ G[:,:,ih]`. -/
def CI_kG (inp : CIDInput) (j ih b : ℕ) : ℚ :=
  ∑ c ∈ Finset.range (inp.n * inp.n), CI_kron inp j c * inp.G.val c b ih

/-- `ahat[j, ih] = T*Gamma_hat[nvar-1,0]**2 - critval*W2[nvar-1,nvar-1]`
(the code assigns the same value to every cell). -/
def CI_ahat (inp : CIDInput) : ℚ :=
  (inp.T : ℚ) * (inp.Gamma (inp.nvar - 1) 0) ^ 2 -
    CI_critval inp * CI_W2 inp (inp.nvar - 1) (inp.nvar - 1)

/-- `bhat[j, ih]`. -/
def CI_bhat (inp : CIDInput) (j ih : ℕ) : ℚ :=
  -2 * (inp.T : ℚ) * inp.scale * CI_eCG inp j ih * inp.Gamma (inp.nvar - 1) 0 +
    2 * CI_critval inp * inp.scale *
      (∑ b ∈ Finset.range inp.G.d2, CI_kG inp j ih b * CI_W12 inp b (inp.nvar - 1)) +
    2 * CI_critval inp * inp.scale *
      (∑ t ∈ Finset.range inp.n, CI_Cmat inp ih j t * CI_W2 inp t (inp.nvar - 1))

/-- `chat[j, ih]`. -/
def CI_chat (inp : CIDInput) (j ih : ℕ) : ℚ :=
  (inp.rt (inp.T : ℚ) * inp.scale * CI_eCG inp j ih) ^ 2 -
    CI_critval inp * inp.scale ^ 2 *
      (∑ a ∈ Finset.range inp.G.d2, ∑ b ∈ Finset.range inp.G.d2,
        CI_kG inp j ih a * CI_W1 inp a b * CI_kG inp j ih b) -
    2 * CI_critval inp * inp.scale ^ 2 *
      (∑ t ∈ Finset.range inp.n,
        (∑ a ∈ Finset.range inp.G.d2, CI_kG inp j ih a * CI_W12 inp a t) *
          CI_Cmat inp ih j t) -
    CI_critval inp * inp.scale ^ 2 *
      (∑ t ∈ Finset.range inp.n, ∑ s ∈ Finset.range inp.n,
        CI_Cmat inp ih j t * CI_W2 inp t s * CI_Cmat inp ih j s)

/-- `Deltahat[j, ih] = bhat**2 - 4*ahat*chat`. -/
def CI_Delta (inp : CIDInput) (j ih : ℕ) : ℚ :=
  CI_bhat inp j ih ^ 2 - 4 * CI_ahat inp * CI_chat inp j ih

/-- `casedummy[j, ih]`. -/
def CI_case (inp : CIDInput) (j ih : ℕ) : ℕ :=
  if 0 < CI_ahat inp ∧ 0 < CI_Delta inp j ih then 1
  else if CI_ahat inp < 0 ∧ 0 < CI_Delta inp j ih then 2
  else if 0 < CI_ahat inp ∧ CI_Delta inp j ih < 0 then 3
  else 4

/-- The lower bound written by the case branch of the loop body. -/
def CI_lraw (inp : CIDInput) (j ih : ℕ) : MSWBound :=
  if 0 < CI_ahat inp ∧ 0 < CI_Delta inp j ih then
    .fin ((-CI_bhat inp j ih - inp.rt (CI_Delta inp j ih)) / (2 * CI_ahat inp))
  else if CI_ahat inp < 0 ∧ 0 < CI_Delta inp j ih then
    .fin ((-CI_bhat inp j ih + inp.rt (CI_Delta inp j ih)) / (2 * CI_ahat inp))
  else if 0 < CI_ahat inp ∧ CI_Delta inp j ih < 0 then .nan
  else .neginf

/-- The upper bound written by the case branch of the loop body. -/
def CI_uraw (inp : CIDInput) (j ih : ℕ) : MSWBound :=
  if 0 < CI_ahat inp ∧ 0 < CI_Delta inp j ih then
    .fin ((-CI_bhat inp j ih + inp.rt (CI_Delta inp j ih)) / (2 * CI_ahat inp))
  else if CI_ahat inp < 0 ∧ 0 < CI_Delta inp j ih then
    .fin ((-CI_bhat inp j ih - inp.rt (CI_Delta inp j ih)) / (2 * CI_ahat inp))
  else if 0 < CI_ahat inp ∧ CI_Delta inp j ih < 0 then .nan
  else .posinf

/-- `MSWlbound` after the final `MSWlbound[nvar-1, 0] = scale` overwrite. -/
def CI_MSWlbound (inp : CIDInput) (j ih : ℕ) : MSWBound :=
  if j = inp.nvar - 1 ∧ ih = 0 then .fin inp.scale else CI_lraw inp j ih

/-- `MSWubound` after the final `MSWubound[nvar-1, 0] = scale` overwrite. -/
def CI_MSWubound (inp : CIDInput) (j ih : ℕ) : MSWBound :=
  if j = inp.nvar - 1 ∧ ih = 0 then .fin inp.scale else CI_uraw inp j ih

/-- The dictionary returned by `CI_dmethod`. -/
structure CIDResult where
  l : ℕ → ℕ → MSWBound
  u : ℕ → ℕ → MSWBound
  ahat : ℕ → ℕ → ℚ
  bhat : ℕ → ℕ → ℚ
  chat : ℕ → ℕ → ℚ
  Deltahat : ℕ → ℕ → ℚ
  casedummy : ℕ → ℕ → ℕ

/-- `CI_dmethod(Gamma_hat, WHat, G, T, C, hori, confidence, scale, nvar)`. -/
def CI_dmethod (inp : CIDInput) : CIDResult :=
  ⟨CI_MSWlbound inp, CI_MSWubound inp, fun _ _ => CI_ahat inp, CI_bhat inp, CI_chat inp,
    CI_Delta inp, CI_case inp⟩

theorem CI_case_one_iff (inp : CIDInput) (j ih : ℕ) :
    CI_case inp j ih = 1 ↔ 0 < CI_ahat inp ∧ 0 < CI_Delta inp j ih := by
  unfold CI_case
  by_cases h1 : 0 < CI_ahat inp ∧ 0 < CI_Delta inp j ih
  · rw [if_pos h1]
    exact iff_of_true rfl h1
  · rw [if_neg h1]
    by_cases h2 : CI_ahat inp < 0 ∧ 0 < CI_Delta inp j ih
    · rw [if_pos h2]
      exact iff_of_false (by decide) h1
    · rw [if_neg h2]
      by_cases h3 : 0 < CI_ahat inp ∧ CI_Delta inp j ih < 0
      · rw [if_pos h3]
        exact iff_of_false (by decide) h1
      · rw [if_neg h3]
        exact iff_of_false (by decide) h1

theorem CI_case_two_iff (inp : CIDInput) (j ih : ℕ) :
    CI_case inp j ih = 2 ↔ CI_ahat inp < 0 ∧ 0 < CI_Delta inp j ih := by
  unfold CI_case
  by_cases h1 : 0 < CI_ahat inp ∧ 0 < CI_Delta inp j ih
  · rw [if_pos h1]
    exact iff_of_false (by decide) (fun hc => by linarith [h1.1, hc.1])
  · rw [if_neg h1]
    by_cases h2 : CI_ahat inp < 0 ∧ 0 < CI_Delta inp j ih
    · rw [if_pos h2]
      exact iff_of_true rfl h2
    · rw [if_neg h2]
      by_cases h3 : 0 < CI_ahat inp ∧ CI_Delta inp j ih < 0
      · rw [if_pos h3]
        exact iff_of_false (by decide) h2
      · rw [if_neg h3]
        exact iff_of_false (by decide) h2

theorem CI_case_three_iff (inp : CIDInput) (j ih : ℕ) :
    CI_case inp j ih = 3 ↔ 0 < CI_ahat inp ∧ CI_Delta inp j ih < 0 := by
  unfold CI_case
  by_cases h1 : 0 < CI_ahat inp ∧ 0 < CI_Delta inp j ih
  · rw [if_pos h1]
    exact iff_of_false (by decide) (fun hc => by linarith [h1.2, hc.2])
  · rw [if_neg h1]
    by_cases h2 : CI_ahat inp < 0 ∧ 0 < CI_Delta inp j ih
    · rw [if_pos h2]
      exact iff_of_false (by decide) (fun hc => by linarith [h2.1, hc.1])
    · rw [if_neg h2]
      by_cases h3 : 0 < CI_ahat inp ∧ CI_Delta inp j ih < 0
      · rw [if_pos h3]
        exact iff_of_true rfl h3
      · rw [if_neg h3]
        exact iff_of_false (by decide) h3

theorem CI_case_four_iff (inp : CIDInput) (j ih : ℕ) :
    CI_case inp j ih = 4 ↔
      ¬(0 < CI_ahat inp ∧ 0 < CI_Delta inp j ih) ∧
      ¬(CI_ahat inp < 0 ∧ 0 < CI_Delta inp j ih) ∧
      ¬(0 < CI_ahat inp ∧ CI_Delta inp j ih < 0) := by
  unfold CI_case
  by_cases h1 : 0 < CI_ahat inp ∧ 0 < CI_Delta inp j ih
  · rw [if_pos h1]
    exact iff_of_false (by decide) (fun hc => hc.1 h1)
  · rw [if_neg h1]
    by_cases h2 : CI_ahat inp < 0 ∧ 0 < CI_Delta inp j ih
    · rw [if_pos h2]
      exact iff_of_false (by decide) (fun hc => hc.2.1 h2)
    · rw [if_neg h2]
      by_cases h3 : 0 < CI_ahat inp ∧ CI_Delta inp j ih < 0
      · rw [if_pos h3]
        exact iff_of_false (by decide) (fun hc => hc.2.2 h3)
      · rw [if_neg h3]
        exact iff_of_true rfl ⟨h1, h2, h3⟩

theorem CI_bounds_of_case3 (inp : CIDInput) (j ih : ℕ) (h : CI_case inp j ih = 3) :
    CI_lraw inp j ih = MSWBound.nan ∧ CI_uraw inp j ih = MSWBound.nan := by
  obtain ⟨ha, hd⟩ := (CI_case_three_iff inp j ih).mp h
  have h1 : ¬(0 < CI_ahat inp ∧ 0 < CI_Delta inp j ih) := by rintro ⟨_, h0⟩; linarith
  have h2 : ¬(CI_ahat inp < 0 ∧ 0 < CI_Delta inp j ih) := by rintro ⟨h0, _⟩; linarith
  constructor
  · rw [CI_lraw, if_neg h1, if_neg h2, if_pos ⟨ha, hd⟩]
  · rw [CI_uraw, if_neg h1, if_neg h2, if_pos ⟨ha, hd⟩]

theorem CI_bounds_of_case4 (inp : CIDInput) (j ih : ℕ) (h : CI_case inp j ih = 4) :
    CI_lraw inp j ih = MSWBound.neginf ∧ CI_uraw inp j ih = MSWBound.posinf := by
  obtain ⟨h1, h2, h3⟩ := (CI_case_four_iff inp j ih).mp h
  constructor
  · rw [CI_lraw, if_neg h1, if_neg h2, if_neg h3]
  · rw [CI_uraw, if_neg h1, if_neg h2, if_neg h3]

/-- C1 amended: per cell the four if/elif/else branches are characterised by
case 1 ↔ `a > 0 ∧ Δ > 0`, case 2 ↔ `a < 0 ∧ Δ > 0`, case 3 ↔ `a > 0 ∧ Δ <
0`, and case 4 ↔ none of these (the catch-all `else`, which also fires at
the boundary values `a = 0` or `Δ = 0`, not only at `a < 0 ∧ Δ < 0`); for
every cell other than the normalized cell `(nvar-1, 0)`, case 3 implies both
returned bounds are NaN and case 4 implies they are `-inf` and `+inf` (at
the normalized cell both bounds are overwritten with `scale`). -/
theorem C1_msw_case_machine (inp : CIDInput) (j ih : ℕ)
    (hj : j < inp.n) (hih : ih < inp.hori) (hC : inp.hori ≤ inp.C.length) :
    ((CI_dmethod inp).casedummy j ih = 1 ↔
      0 < (CI_dmethod inp).ahat j ih ∧ 0 < (CI_dmethod inp).Deltahat j ih) ∧
    ((CI_dmethod inp).casedummy j ih = 2 ↔
      (CI_dmethod inp).ahat j ih < 0 ∧ 0 < (CI_dmethod inp).Deltahat j ih) ∧
    ((CI_dmethod inp).casedummy j ih = 3 ↔
      0 < (CI_dmethod inp).ahat j ih ∧ (CI_dmethod inp).Deltahat j ih < 0) ∧
    ((CI_dmethod inp).casedummy j ih = 4 ↔
      ¬(0 < (CI_dmethod inp).ahat j ih ∧ 0 < (CI_dmethod inp).Deltahat j ih) ∧
      ¬((CI_dmethod inp).ahat j ih < 0 ∧ 0 < (CI_dmethod inp).Deltahat j ih) ∧
      ¬(0 < (CI_dmethod inp).ahat j ih ∧ (CI_dmethod inp).Deltahat j ih < 0)) ∧
    (¬(j = inp.nvar - 1 ∧ ih = 0) →
      ((CI_dmethod inp).casedummy j ih = 3 →
        (CI_dmethod inp).l j ih = MSWBound.nan ∧
        (CI_dmethod inp).u j ih = MSWBound.nan) ∧
      ((CI_dmethod inp).casedummy j ih = 4 →
        (CI_dmethod inp).l j ih = MSWBound.neginf ∧
        (CI_dmethod inp).u j ih = MSWBound.posinf)) := by
  refine ⟨CI_case_one_iff inp j ih, CI_case_two_iff inp j ih, CI_case_three_iff inp j ih,
    CI_case_four_iff inp j ih, fun hnot => ⟨fun h3 => ?_, fun h4 => ?_⟩⟩
  · have hb := CI_bounds_of_case3 inp j ih h3
    show CI_MSWlbound inp j ih = MSWBound.nan ∧ CI_MSWubound inp j ih = MSWBound.nan
    rw [CI_MSWlbound, CI_MSWubound, if_neg hnot, if_neg hnot]
    exact hb
  · have hb := CI_bounds_of_case4 inp j ih h4
    show CI_MSWlbound inp j ih = MSWBound.neginf ∧ CI_MSWubound inp j ih = MSWBound.posinf
    rw [CI_MSWlbound, CI_MSWubound, if_neg hnot, if_neg hnot]
    exact hb

/-- CI_dmethod input with zero `Gamma_hat` and zero `WHat` (n = 1, one
horizon, `T = 1`, unit scale, quantile modelled as the constant 1): every
quadratic coefficient is zero, so `a = Δ = 0`. -/
def cexAInput : CIDInput :=
  ⟨zeroMat, zeroMat, 2, ⟨1, 1, 1, fun _ _ _ => 0⟩, 1, [eye], 1, 1, 19 / 20,
    fun _ => 1, 1, 1, id⟩

/-- CI_dmethod input (n = 1, `Gamma_hat = [[2]]`, `WHat = [[-1, 0], [0, 1]]`,
`G ≡ 1`, `C = [0]`, `T = 1`) whose normalized cell `(0, 0)` lands in case 3:
`a = 3 > 0`, `b = 0`, `c = 4`, `Δ = -48 < 0`. -/
def cexBInput : CIDInput :=
  ⟨fun _ _ => 2,
    fun i j => if i = 0 ∧ j = 0 then -1 else if i = 1 ∧ j = 1 then 1 else 0, 2,
    ⟨1, 1, 1, fun _ _ _ => 1⟩, 1, [zeroMat], 1, 1, 19 / 20, fun _ => 1, 1, 1, id⟩

theorem cexA_ahat : CI_ahat cexAInput = 0 := by
  norm_num [CI_ahat, CI_critval, CI_W2, cexAInput, zeroMat]

theorem cexA_Delta : CI_Delta cexAInput 0 0 = 0 := by
  norm_num [CI_Delta, CI_ahat, CI_bhat, CI_chat, CI_critval, CI_W1, CI_W2, CI_W12,
    CI_eCG, CI_kG, CI_kron, CI_Cmat, cexAInput, zeroMat, eye, Finset.sum_range_succ,
    Finset.sum_range_zero, List.getD_cons_zero]

theorem cexB_ahat : CI_ahat cexBInput = 3 := by
  norm_num [CI_ahat, CI_critval, CI_W2, cexBInput]

theorem cexB_Delta : CI_Delta cexBInput 0 0 = -48 := by
  norm_num [CI_Delta, CI_ahat, CI_bhat, CI_chat, CI_critval, CI_W1, CI_W2, CI_W12,
    CI_eCG, CI_kG, CI_kron, CI_Cmat, cexBInput, zeroMat, Finset.sum_range_succ,
    Finset.sum_range_zero, List.getD_cons_zero]

/-- C1 counterexample: (i) with zero `Gamma_hat` and `WHat` the cell `(0,0)`
has `a = 0` yet is classified case 4, so the claim's sign characterisation
of case 4 (`a < 0` with `Δ < 0`) does not apply and none of the claim's
four sign-cases holds at this cell; (ii) at `cexBInput` the normalized cell
is classified case 3, yet its returned bounds are the overwritten finite
`scale`, not NaN. -/
theorem C1_msw_case_machine_cex :
    ((CI_dmethod cexAInput).casedummy 0 0 = 4 ∧
      ¬((CI_dmethod cexAInput).ahat 0 0 < 0)) ∧
    ((CI_dmethod cexBInput).casedummy 0 0 = 3 ∧
      (CI_dmethod cexBInput).l 0 0 = MSWBound.fin 1 ∧
      (CI_dmethod cexBInput).u 0 0 = MSWBound.fin 1) := by
  refine ⟨⟨?_, ?_⟩, ?_, ?_, ?_⟩
  · show CI_case cexAInput 0 0 = 4
    rw [CI_case_four_iff]
    refine ⟨?_, ?_, ?_⟩
    · rintro ⟨h1, _⟩
      rw [cexA_ahat] at h1
      exact lt_irrefl 0 h1
    · rintro ⟨h1, _⟩
      rw [cexA_ahat] at h1
      exact lt_irrefl 0 h1
    · rintro ⟨_, h2⟩
      rw [cexA_Delta] at h2
      exact lt_irrefl 0 h2
  · show ¬(CI_ahat cexAInput < 0)
    rw [cexA_ahat]
    exact lt_irrefl 0
  · show CI_case cexBInput 0 0 = 3
    rw [CI_case_three_iff, cexB_ahat, cexB_Delta]
    norm_num
  · show CI_MSWlbound cexBInput 0 0 = MSWBound.fin 1
    rw [CI_MSWlbound, if_pos ⟨rfl, rfl⟩]
    rfl
  · show CI_MSWubound cexBInput 0 0 = MSWBound.fin 1
    rw [CI_MSWubound, if_pos ⟨rfl, rfl⟩]
    rfl

/-- The constant `2` matrix. -/
def twoMat : Mat := fun _ _ => 2

/-- Concrete CI_dmethod input whose cell `(0, 1)` is in case 1: `n = 1`,
`Gamma_hat = [[2]]`, `WHat ≡ 1`, `G ≡ 1`, `C = [I, I]`, `T = 1`,
quantile modelled as the constant 1; there `a = 3`, `b = -2`, `c = -5`,
`Δ = 64`. -/
def ciWitInput : CIDInput :=
  ⟨twoMat, oneMat, 2, ⟨1, 1, 1, fun _ _ _ => 1⟩, 1, [eye, eye], 2, 1, 19 / 20,
    fun _ => 1, 1, 1, id⟩

theorem ciWit_ahat : CI_ahat ciWitInput = 3 := by
  norm_num [CI_ahat, CI_critval, CI_W2, ciWitInput, twoMat, oneMat]

theorem ciWit_Delta : CI_Delta ciWitInput 0 1 = 64 := by
  norm_num [CI_Delta, CI_ahat, CI_bhat, CI_chat, CI_critval, CI_W1, CI_W2, CI_W12,
    CI_eCG, CI_kG, CI_kron, CI_Cmat, ciWitInput, twoMat, oneMat, eye,
    Finset.sum_range_succ, Finset.sum_range_zero, List.getD_cons_zero,
    List.getD_cons_succ]

theorem ciWit_case1 : (CI_dmethod ciWitInput).casedummy 0 1 = 1 := by
  show CI_case ciWitInput 0 1 = 1
  rw [CI_case_one_iff, ciWit_ahat, ciWit_Delta]
  norm_num

/-- C1 amended witness: the range hypotheses hold and the amended theorem
applies at `ciWitInput`, cell `(0, 1)`. -/
theorem C1_msw_case_machine_witness :
    ((0 : ℕ) < ciWitInput.n ∧ (1 : ℕ) < ciWitInput.hori ∧
      ciWitInput.hori ≤ ciWitInput.C.length) ∧
    (((CI_dmethod ciWitInput).casedummy 0 1 = 1 ↔
      0 < (CI_dmethod ciWitInput).ahat 0 1 ∧ 0 < (CI_dmethod ciWitInput).Deltahat 0 1) ∧
    ((CI_dmethod ciWitInput).casedummy 0 1 = 2 ↔
      (CI_dmethod ciWitInput).ahat 0 1 < 0 ∧ 0 < (CI_dmethod ciWitInput).Deltahat 0 1) ∧
    ((CI_dmethod ciWitInput).casedummy 0 1 = 3 ↔
      0 < (CI_dmethod ciWitInput).ahat 0 1 ∧ (CI_dmethod ciWitInput).Deltahat 0 1 < 0) ∧
    ((CI_dmethod ciWitInput).casedummy 0 1 = 4 ↔
      ¬(0 < (CI_dmethod ciWitInput).ahat 0 1 ∧ 0 < (CI_dmethod ciWitInput).Deltahat 0 1) ∧
      ¬((CI_dmethod ciWitInput).ahat 0 1 < 0 ∧ 0 < (CI_dmethod ciWitInput).Deltahat 0 1) ∧
      ¬(0 < (CI_dmethod ciWitInput).ahat 0 1 ∧ (CI_dmethod ciWitInput).Deltahat 0 1 < 0)) ∧
    (¬((0 : ℕ) = ciWitInput.nvar - 1 ∧ (1 : ℕ) = 0) →
      ((CI_dmethod ciWitInput).casedummy 0 1 = 3 →
        (CI_dmethod ciWitInput).l 0 1 = MSWBound.nan ∧
        (CI_dmethod ciWitInput).u 0 1 = MSWBound.nan) ∧
      ((CI_dmethod ciWitInput).casedummy 0 1 = 4 →
        (CI_dmethod ciWitInput).l 0 1 = MSWBound.neginf ∧
        (CI_dmethod ciWitInput).u 0 1 = MSWBound.posinf))) :=
  ⟨⟨by decide, by decide, by decide⟩,
    C1_msw_case_machine ciWitInput 0 1 (by decide) (by decide) (by decide)⟩

/-- C9: for every input the returned bound arrays carry the fixed `scale`
value, in both the lower and the upper array, at the normalized cell
`(nvar-1, 0)` — the final overwrite is unconditional, whatever quadratic
case the cell's `(a, Δ)` values would have selected. -/
theorem C9_scale_overwrite (inp : CIDInput) (hnv : 1 ≤ inp.nvar) :
    (CI_dmethod inp).l (inp.nvar - 1) 0 = MSWBound.fin inp.scale ∧
    (CI_dmethod inp).u (inp.nvar - 1) 0 = MSWBound.fin inp.scale := by
  constructor
  · show CI_MSWlbound inp (inp.nvar - 1) 0 = MSWBound.fin inp.scale
    rw [CI_MSWlbound, if_pos ⟨rfl, rfl⟩]
  · show CI_MSWubound inp (inp.nvar - 1) 0 = MSWBound.fin inp.scale
    rw [CI_MSWubound, if_pos ⟨rfl, rfl⟩]

/-- C9 witness: `1 ≤ nvar` holds and the theorem applies at `cexBInput`,
whose normalized cell is in case 3 — the overwrite wins over the NaN. -/
theorem C9_scale_overwrite_witness :
    1 ≤ cexBInput.nvar ∧
    ((CI_dmethod cexBInput).l (cexBInput.nvar - 1) 0 = MSWBound.fin cexBInput.scale ∧
      (CI_dmethod cexBInput).u (cexBInput.nvar - 1) 0 = MSWBound.fin cexBInput.scale) :=
  ⟨by decide, C9_scale_overwrite cexBInput (by decide)⟩

/-- C10: whenever the returned case classifier of a cell is 1 or 2, both
returned bounds are finite and the lower one is at most the upper one;
the bounds can only coincide at the normalized cell `(nvar-1, 0)`, where
both are overwritten with `scale` (the model assumption on `rt` is that the
square root of a positive number is positive, as for floats). -/
theorem C10_case12_ordered (inp : CIDInput) (j ih : ℕ)
    (hj : j < inp.n) (hih : ih < inp.hori) (hC : inp.hori ≤ inp.C.length)
    (hrt : ∀ x : ℚ, 0 < x → 0 < inp.rt x)
    (hcase : (CI_dmethod inp).casedummy j ih = 1 ∨ (CI_dmethod inp).casedummy j ih = 2) :
    ∃ x y : ℚ, (CI_dmethod inp).l j ih = MSWBound.fin x ∧
      (CI_dmethod inp).u j ih = MSWBound.fin y ∧ x ≤ y ∧
      (¬(j = inp.nvar - 1 ∧ ih = 0) → x < y) := by
  by_cases hnorm : j = inp.nvar - 1 ∧ ih = 0
  · refine ⟨inp.scale, inp.scale, ?_, ?_, le_refl _, fun h => absurd hnorm h⟩
    · show CI_MSWlbound inp j ih = MSWBound.fin inp.scale
      rw [CI_MSWlbound, if_pos hnorm]
    · show CI_MSWubound inp j ih = MSWBound.fin inp.scale
      rw [CI_MSWubound, if_pos hnorm]
  · rcases hcase with h1 | h2
    · obtain ⟨ha, hd⟩ := (CI_case_one_iff inp j ih).mp h1
      have hr : 0 < inp.rt (CI_Delta inp j ih) := hrt _ hd
      have hne : ¬(CI_ahat inp < 0 ∧ 0 < CI_Delta inp j ih) := by
        rintro ⟨h0, _⟩; linarith
      have hlt : (-CI_bhat inp j ih - inp.rt (CI_Delta inp j ih)) / (2 * CI_ahat inp) <
          (-CI_bhat inp j ih + inp.rt (CI_Delta inp j ih)) / (2 * CI_ahat inp) :=
        (div_lt_div_iff_of_pos_right (by linarith)).mpr (by linarith)
      refine ⟨_, _, ?_, ?_, le_of_lt hlt, fun _ => hlt⟩
      · show CI_MSWlbound inp j ih = _
        rw [CI_MSWlbound, if_neg hnorm, CI_lraw, if_pos ⟨ha, hd⟩]
      · show CI_MSWubound inp j ih = _
        rw [CI_MSWubound, if_neg hnorm, CI_uraw, if_pos ⟨ha, hd⟩]
    · obtain ⟨ha, hd⟩ := (CI_case_two_iff inp j ih).mp h2
      have hr : 0 < inp.rt (CI_Delta inp j ih) := hrt _ hd
      have hn1 : ¬(0 < CI_ahat inp ∧ 0 < CI_Delta inp j ih) := by
        rintro ⟨h0, _⟩; linarith
      have hlt : (-CI_bhat inp j ih + inp.rt (CI_Delta inp j ih)) / (2 * CI_ahat inp) <
          (-CI_bhat inp j ih - inp.rt (CI_Delta inp j ih)) / (2 * CI_ahat inp) :=
        (div_lt_div_right_of_neg (by linarith)).mpr (by linarith)
      refine ⟨_, _, ?_, ?_, le_of_lt hlt, fun _ => hlt⟩
      · show CI_MSWlbound inp j ih = _
        rw [CI_MSWlbound, if_neg hnorm, CI_lraw, if_neg hn1, if_pos ⟨ha, hd⟩]
      · show CI_MSWubound inp j ih = _
        rw [CI_MSWubound, if_neg hnorm, CI_uraw, if_neg hn1, if_pos ⟨ha, hd⟩]

/-- C10 witness: all hypotheses hold at `ciWitInput`, cell `(0, 1)` (a case-1
cell away from the normalized cell), and the theorem applies there. -/
theorem C10_case12_ordered_witness :
    ((0 : ℕ) < ciWitInput.n ∧ (1 : ℕ) < ciWitInput.hori ∧
      ciWitInput.hori ≤ ciWitInput.C.length ∧ (∀ x : ℚ, 0 < x → 0 < id x) ∧
      ((CI_dmethod ciWitInput).casedummy 0 1 = 1 ∨
        (CI_dmethod ciWitInput).casedummy 0 1 = 2)) ∧
    (∃ x y : ℚ, (CI_dmethod ciWitInput).l 0 1 = MSWBound.fin x ∧
      (CI_dmethod ciWitInput).u 0 1 = MSWBound.fin y ∧ x ≤ y ∧
      (¬((0 : ℕ) = ciWitInput.nvar - 1 ∧ (1 : ℕ) = 0) → x < y)) :=
  ⟨⟨by decide, by decide, by decide, fun x hx => hx, Or.inl ciWit_case1⟩,
    C10_case12_ordered ciWitInput 0 1 (by decide) (by decide) (by decide)
      (fun x hx => hx) (Or.inl ciWit_case1)⟩

/-!
## CI_dmethod_standard

    lambdahatcum[ivar,ih] = (scale*e[:,ivar].T @ C[ih] @ Gamma_hat / Gamma_hat[nvar-1,0])[0]
    d1 = scale * np.kron(Gamma_hat.T, e[:,ivar].T) @ G[:,:,ih]
    d2 = scale * e[:,ivar].T @ C[ih] - lambdahatcum[ivar,ih] * e[:, nvar-1].T
    d = np.concatenate([d1, d2.reshape(1,len(d2))], axis=1).T
    DmethodVarcum[ivar,ih] = d.T @ WHat @ d
    Dmethodlboundcum = lambdahat - ((critval/T)**.5)*(Var**.5)/abs(Gamma_hat[nvar-1,0])
    Dmethoduboundcum = lambdahat + ((critval/T)**.5)*(Var**.5)/abs(Gamma_hat[nvar-1,0])
    std = (Var**.5) / ((T**.5)*np.abs(Gamma_hat[nvar-1,0]))
-/

/-- `lambdahatcum[ivar, ih]`. -/
def CIstd_lambdahat (inp : CIDInput) (ivar ih : ℕ) : ℚ :=
  inp.scale * CI_eCG inp ivar ih / inp.Gamma (inp.nvar - 1) 0

/-- Entry `a` of the stacked gradient vector `d` (length `G.d2 + n`): first
the `d1` part, then the `d2` part. -/
def CIstd_d (inp : CIDInput) (ivar ih : ℕ) : ℕ → ℚ :=
  fun a =>
    if a < inp.G.d2 then inp.scale * CI_kG inp ivar ih a
    else
      inp.scale * CI_Cmat inp ih ivar (a - inp.G.d2) -
        CIstd_lambdahat inp ivar ih * (if a - inp.G.d2 = inp.nvar - 1 then 1 else 0)

/-- `DmethodVarcum[ivar, ih] = d.T @ WHat @ d`. -/
def CIstd_Var (inp : CIDInput) (ivar ih : ℕ) : ℚ :=
  ∑ a ∈ Finset.range (inp.G.d2 + inp.n), ∑ b ∈ Finset.range (inp.G.d2 + inp.n),
    CIstd_d inp ivar ih a * inp.WHat a b * CIstd_d inp ivar ih b

/-- The half-width `((critval/T)**.5) * (Var**.5) / abs(Gamma_hat[nvar-1,0])`. -/
def CIstd_halfwidth (inp : CIDInput) (ivar ih : ℕ) : ℚ :=
  inp.rt (CI_critval inp / (inp.T : ℚ)) * inp.rt (CIstd_Var inp ivar ih) /
    |inp.Gamma (inp.nvar - 1) 0|

/-- The dictionary returned by `CI_dmethod_standard`. -/
structure CIstdResult where
  lambdahatcum : ℕ → ℕ → ℚ
  DmethodVarcum : ℕ → ℕ → ℚ
  l : ℕ → ℕ → ℚ
  u : ℕ → ℕ → ℚ
  pluginirf : ℕ → ℕ → ℚ
  pluginirfstderror : ℕ → ℕ → ℚ

/-- `CI_dmethod_standard(Gamma_hat, WHat, G, T, C, hori, confidence, scale,
nvar)`. -/
def CI_dmethod_standard (inp : CIDInput) : CIstdResult :=
  ⟨CIstd_lambdahat inp, CIstd_Var inp,
    fun ivar ih => CIstd_lambdahat inp ivar ih - CIstd_halfwidth inp ivar ih,
    fun ivar ih => CIstd_lambdahat inp ivar ih + CIstd_halfwidth inp ivar ih,
    CIstd_lambdahat inp,
    fun ivar ih =>
      inp.rt (CIstd_Var inp ivar ih) /
        (inp.rt (inp.T : ℚ) * |inp.Gamma (inp.nvar - 1) 0|)⟩

/-- C6: each standard-variant interval is symmetric around its point estimate
(`upper - lambdahat = lambdahat - lower`), the common half-width is
`√(critval/T)·√variance/|Gamma_hat[nvar-1]|`, and the variance is the
quadratic form `dᵀ·WHat·d` of the stacked gradient vector. -/
theorem C6_standard_symmetric (inp : CIDInput) (ivar ih : ℕ)
    (hiv : ivar < inp.n) (hih : ih < inp.hori) (hC : inp.hori ≤ inp.C.length)
    (hT : 0 < inp.T) (hGam : inp.Gamma (inp.nvar - 1) 0 ≠ 0) :
    (CI_dmethod_standard inp).u ivar ih - (CI_dmethod_standard inp).lambdahatcum ivar ih =
      (CI_dmethod_standard inp).lambdahatcum ivar ih - (CI_dmethod_standard inp).l ivar ih ∧
    (CI_dmethod_standard inp).u ivar ih - (CI_dmethod_standard inp).lambdahatcum ivar ih =
      inp.rt (CI_critval inp / (inp.T : ℚ)) * inp.rt ((CI_dmethod_standard inp).DmethodVarcum ivar ih) /
        |inp.Gamma (inp.nvar - 1) 0| ∧
    (CI_dmethod_standard inp).DmethodVarcum ivar ih =
      ∑ a ∈ Finset.range (inp.G.d2 + inp.n), ∑ b ∈ Finset.range (inp.G.d2 + inp.n),
        CIstd_d inp ivar ih a * inp.WHat a b * CIstd_d inp ivar ih b := by
  refine ⟨?_, ?_, rfl⟩
  · show CIstd_lambdahat inp ivar ih + CIstd_halfwidth inp ivar ih -
        CIstd_lambdahat inp ivar ih =
      CIstd_lambdahat inp ivar ih -
        (CIstd_lambdahat inp ivar ih - CIstd_halfwidth inp ivar ih)
    ring
  · show CIstd_lambdahat inp ivar ih + CIstd_halfwidth inp ivar ih -
        CIstd_lambdahat inp ivar ih = _
    rw [add_sub_cancel_left]
    rfl

/-- C6 witness: every hypothesis holds at `ciWitInput`, cell `(0, 1)`, and
the theorem applies there. -/
theorem C6_standard_symmetric_witness :
    ((0 : ℕ) < ciWitInput.n ∧ (1 : ℕ) < ciWitInput.hori ∧
      ciWitInput.hori ≤ ciWitInput.C.length ∧ 0 < ciWitInput.T ∧
      ciWitInput.Gamma (ciWitInput.nvar - 1) 0 ≠ 0) ∧
    ((CI_dmethod_standard ciWitInput).u 0 1 -
        (CI_dmethod_standard ciWitInput).lambdahatcum 0 1 =
      (CI_dmethod_standard ciWitInput).lambdahatcum 0 1 -
        (CI_dmethod_standard ciWitInput).l 0 1 ∧
    (CI_dmethod_standard ciWitInput).u 0 1 -
        (CI_dmethod_standard ciWitInput).lambdahatcum 0 1 =
      ciWitInput.rt (CI_critval ciWitInput / (ciWitInput.T : ℚ)) *
        ciWitInput.rt ((CI_dmethod_standard ciWitInput).DmethodVarcum 0 1) /
        |ciWitInput.Gamma (ciWitInput.nvar - 1) 0| ∧
    (CI_dmethod_standard ciWitInput).DmethodVarcum 0 1 =
      ∑ a ∈ Finset.range (ciWitInput.G.d2 + ciWitInput.n),
        ∑ b ∈ Finset.range (ciWitInput.G.d2 + ciWitInput.n),
          CIstd_d ciWitInput 0 1 a * ciWitInput.WHat a b * CIstd_d ciWitInput 0 1 b) :=
  ⟨⟨by decide, by decide, by decide, by decide, by decide⟩,
    C6_standard_symmetric ciWitInput 0 1 (by decide) (by decide) (by decide)
      (by decide) (by decide)⟩
